import Mathlib

/-!
Verification of the lmbatch context-budget planner, content splitter and
batch-statistics aggregator (`src/file_manager.py`, `src/processor.py`).

Texts are modelled as `List Char` (one element per Python character).
Python integers are modelled as `ℤ` where values can be negative (the
available-token budget) and as `ℕ` where they cannot (lengths, token
estimates).  Python `//` on non-negative operands is `Nat` division; on
possibly negative operands it is `Int.fdiv` (floor division).  The float
literal `0.8` that appears in the splitter's word-boundary test
`space_pos > start + chunk_size_chars * 0.8` is modelled as the exact
rational 4/5, i.e. the test becomes `5 * space_pos > 5 * start + 4 * csc`.
The splitter's `while` loop is embedded with an explicit fuel parameter;
`SplitOutcome.outOfFuel` for every fuel value means the loop diverges.
-/

/-- The separator `"\n\n---\n\n"` used by `combine_prompt_and_text`. -/
def sepChars : List Char := ("\n\n---\n\n").data

/-- Token estimator used for prompt, separator and body alike:
`len(text) // 4` (floor division, per the source). -/
def tokenEstimate (s : List Char) : ℕ := s.length / 4

/-- `available_tokens = max_context_length - prompt_tokens - separator_tokens
- safety_margin - min(max_tokens, 2048)` (file_manager.py lines 165-166). -/
def availableTokens (prompt : List Char) (max_context_length max_tokens safety_margin : ℤ) : ℤ :=
  max_context_length - (tokenEstimate prompt : ℤ) - (tokenEstimate sepChars : ℤ)
    - safety_margin - min max_tokens 2048

/-- The metadata dictionary built by `combine_prompt_and_text` (lines 168-177),
with `Option` fields for keys that later code may add (`truncated_chars`,
chunk fields) or read with a default (`overlap_tokens`). -/
structure Metadata where
  prompt_tokens : ℕ := 0
  text_tokens : ℕ := 0
  total_input_tokens : ℕ := 0
  context_limit : ℤ := 0
  available_tokens : ℤ := 0
  strategy_used : String := ""
  was_truncated : Bool := false
  was_split : Bool := false
  truncated_chars : Option ℕ := none
  overlap_tokens : Option ℕ := none
  chunk_number : Option ℕ := none
  chunk_start : Option ℤ := none
  chunk_end : Option ℤ := none
  chunk_chars : Option ℕ := none
  chunk_tokens : Option ℕ := none
  deriving DecidableEq

/-- The base metadata value as built at file_manager.py lines 168-177. -/
def combineMeta (prompt text : List Char) (max_context_length max_tokens safety_margin : ℤ)
    (strategy : String) : Metadata :=
  { prompt_tokens := tokenEstimate prompt
    text_tokens := tokenEstimate text
    total_input_tokens := tokenEstimate prompt + tokenEstimate sepChars + tokenEstimate text
    context_limit := max_context_length
    available_tokens := availableTokens prompt max_context_length max_tokens safety_margin
    strategy_used := strategy
    was_truncated := false
    was_split := false }

/-- Index of the last occurrence of `c` in the list, if any. -/
def lastIdxOf (c : Char) : List Char → Option ℕ
  | [] => none
  | x :: xs =>
    match lastIdxOf c xs with
    | some i => some (i + 1)
    | none => if x = c then some 0 else none

/-- Python slice `s[a:b]`: negative indices count from the end, then both
bounds are clamped to `[0, len(s)]`. -/
def pySlice (s : List Char) (a b : ℤ) : List Char :=
  let n : ℤ := s.length
  let a' : ℤ := if a < 0 then max (n + a) 0 else min a n
  let b' : ℤ := if b < 0 then max (n + b) 0 else min b n
  (s.drop a'.toNat).take (b' - a').toNat

/-- Python `s.rfind(c, a, b)`: highest index of `c` in `s[a:b]`
(absolute index into `s`), or `-1` when there is none. -/
def pyRfind (s : List Char) (c : Char) (a b : ℤ) : ℤ :=
  let n : ℤ := s.length
  let a' : ℤ := if a < 0 then max (n + a) 0 else min a n
  match lastIdxOf c (pySlice s a b) with
  | some i => a' + i
  | none => -1

/-- Python `s[:e]` (slice with only an upper bound). -/
def pyTakeTo (s : List Char) (e : ℤ) : List Char :=
  if 0 ≤ e then s.take e.toNat else s.take ((s.length : ℤ) + e).toNat

/-- Python `s.rsplit(' ', 1)[0]`: everything before the last space,
or the whole string when it has no space. -/
def rsplitBeforeLastSpace (s : List Char) : List Char :=
  match lastIdxOf ' ' s with
  | some i => s.take i
  | none => s

/-- The text kept by the truncate strategy (file_manager.py line 212):
`text_content[:max_text_chars].rsplit(' ', 1)[0]` with
`max_text_chars = available_tokens * 4`. -/
def truncKept (text : List Char) (available_tokens : ℤ) : List Char :=
  rsplitBeforeLastSpace (pyTakeTo text (available_tokens * 4))

/-- The truncation notice appended at file_manager.py line 213. -/
def truncNotice (removed : ℕ) : List Char :=
  ("\n\n[NOTE: Text was truncated due to context length limits - "
    ++ toString removed ++ " characters removed]").data

/-- Marker prepended to every chunk after the first (line 272). -/
def contFromMarker : List Char := ("[...continued from previous chunk]\n").data

/-- Marker between the overlap text and the chunk core (line 272). -/
def midMarker : List Char := ("\n---\n").data

/-- Marker appended to every chunk except the last (line 276). -/
def contNextMarker : List Char := ("\n[...continues in next chunk]").data

/-- The cosmetic total-chunk estimate `(text_length // chunk_size_chars) + 1`
in the chunk header (line 279); Python `//` is floor division. -/
def chunkCountEstimate (text : List Char) (csc : ℤ) : ℤ :=
  Int.fdiv (text.length : ℤ) csc + 1

/-- The chunk header `"[CHUNK {i} of estimated {est}]\n\n"` (line 279). -/
def chunkHeader (i : ℕ) (est : ℤ) : List Char :=
  ("[CHUNK " ++ toString i ++ " of estimated " ++ toString est ++ "]\n\n").data

/-- End position chosen for the chunk starting at `s` (lines 255-263):
`end = min(start + chunk_size_chars, text_length)`, then if `end` is not at
the text end and the last space in `[start, end)` lies strictly after
`start + 0.8 * chunk_size_chars`, back off to that space. -/
def stepEnd (text : List Char) (csc s : ℤ) : ℤ :=
  let n : ℤ := text.length
  let e1 : ℤ := min (s + csc) n
  if e1 < n then
    let sp : ℤ := pyRfind text ' ' s e1
    if 5 * sp > 5 * s + 4 * csc then sp else e1
  else e1

/-- The chunk text assembled at lines 266-276: the core `text[start:end]`,
with the continuation prefix and overlap when `start > 0` and the
continues-marker when `end < text_length`. -/
def mkChunkText (text : List Char) (csc oc s : ℤ) : List Char :=
  let n : ℤ := text.length
  let e : ℤ := stepEnd text csc s
  let core := pySlice text s e
  let withOv := if 0 < s then
      contFromMarker ++ pySlice text (max 0 (s - oc)) s ++ midMarker ++ core
    else core
  if e < n then withOv ++ contNextMarker else withOv

/-- One `(combined, chunk_metadata)` pair as appended at lines 278-292. -/
def mkChunk (text prompt : List Char) (csc oc : ℤ) (meta : Metadata) (s : ℤ) (c : ℕ) :
    List Char × Metadata :=
  let e : ℤ := stepEnd text csc s
  let full := mkChunkText text csc oc s
  let combined := prompt ++ sepChars ++ chunkHeader c (chunkCountEstimate text csc) ++ full
  (combined,
    { meta with
      was_split := true
      chunk_number := some c
      chunk_start := some s
      chunk_end := some e
      chunk_chars := some full.length
      chunk_tokens := some (full.length / 4) })

/-- Outcome of the splitter's `while` loop: the chunk list, the
`ZeroDivisionError` raised by `text_length // chunk_size_chars` when the
chunk budget is zero, or failure to finish within the given fuel. -/
inductive SplitOutcome where
  | ok (chunks : List (List Char × Metadata))
  | zeroDivisionError
  | outOfFuel
  deriving DecidableEq

/-- The `while start < text_length` loop of `_split_content`
(lines 254-296), with explicit fuel.  The `csc = 0` test models the
`ZeroDivisionError` that `(text_length // chunk_size_chars)` raises inside
the loop body; otherwise the loop appends a chunk and advances
`start = end`. -/
def splitLoop (text prompt : List Char) (csc oc : ℤ) (meta : Metadata) :
    ℕ → ℤ → ℕ → List (List Char × Metadata) → SplitOutcome
  | 0, s, _, acc => if s < (text.length : ℤ) then .outOfFuel else .ok acc.reverse
  | fuel + 1, s, c, acc =>
    if s < (text.length : ℤ) then
      if csc = 0 then .zeroDivisionError
      else splitLoop text prompt csc oc meta fuel (stepEnd text csc s) (c + 1)
        (mkChunk text prompt csc oc meta s c :: acc)
    else .ok acc.reverse

/-- `_split_content` (file_manager.py lines 230-298):
`overlap_chars = base_metadata.get('overlap_tokens', 300) * 4`,
`chunk_size_chars = available_tokens * 4`, then the chunking loop starting
at `start = 0`, `chunk_num = 1`. -/
def split_content (prompt text : List Char) (available_tokens : ℤ) (base_metadata : Metadata)
    (fuel : ℕ) : SplitOutcome :=
  splitLoop text prompt (available_tokens * 4)
    ((base_metadata.overlap_tokens.getD 300 : ℕ) * 4) base_metadata fuel 0 1 []

/-- Errors raised by `combine_prompt_and_text`: the `'fail'`-strategy
`ValueError` carrying the budget breakdown (lines 186-199), the
unknown-strategy `ValueError` (line 228), and the `ZeroDivisionError`
escaping from `_split_content`. -/
inductive CombineError where
  | contextOverflow (prompt_tokens text_tokens total_tokens : ℕ)
      (context_limit available_tokens : ℤ)
  | unknownStrategy (strategy : String)
  | zeroDivisionError
  deriving DecidableEq

/-- Result of `combine_prompt_and_text`: a single `(combined, metadata)`
tuple, a list of chunk tuples (split strategy), a raised error, or
non-termination of the split loop (out of fuel). -/
inductive CombineResult where
  | single (combined : List Char) (meta : Metadata)
  | chunks (l : List (List Char × Metadata))
  | error (e : CombineError)
  | outOfFuel
  deriving DecidableEq

/-- `combine_prompt_and_text` (file_manager.py lines 130-228).  The
`warn_on_truncation` flag only controls a console warning and is omitted.
The `if`/`elif` chain on the strategy string is rendered as a match with
the same literals, tested only after the fits check. -/
def combine_prompt_and_text (prompt_content text_content : List Char)
    (max_context_length max_tokens safety_margin : ℤ) (strategy : String)
    (fuel : ℕ) : CombineResult :=
  let avail := availableTokens prompt_content max_context_length max_tokens safety_margin
  let metadata := combineMeta prompt_content text_content max_context_length max_tokens
    safety_margin strategy
  if (tokenEstimate text_content : ℤ) ≤ avail then
    .single (prompt_content ++ sepChars ++ text_content) metadata
  else
    match strategy with
    | "fail" =>
      .error (.contextOverflow (tokenEstimate prompt_content) (tokenEstimate text_content)
        (tokenEstimate prompt_content + tokenEstimate sepChars + tokenEstimate text_content)
        max_context_length avail)
    | "force" =>
      .single (prompt_content ++ sepChars ++ text_content)
        { metadata with strategy_used := "force" }
    | "truncate" =>
      if (text_content.length : ℤ) > avail * 4 then
        let truncated := truncKept text_content avail
        let newText := truncated ++ truncNotice (text_content.length - truncated.length)
        .single (prompt_content ++ sepChars ++ newText)
          { metadata with
            was_truncated := true
            truncated_chars := some (newText.length - truncated.length) }
      else .single (prompt_content ++ sepChars ++ text_content) metadata
    | "split" =>
      match split_content prompt_content text_content avail metadata fuel with
      | .ok l => .chunks l
      | .zeroDivisionError => .error .zeroDivisionError
      | .outOfFuel => .outOfFuel
    | _ => .error (.unknownStrategy strategy)

/-- All metadata records occurring in a `CombineResult`. -/
def resultMetas : CombineResult → List Metadata
  | .single _ m => [m]
  | .chunks l => l.map (fun p => p.2)
  | .error _ => []
  | .outOfFuel => []

/-- Number of chunks of an `ok` split outcome (`none` otherwise). -/
def okLength : SplitOutcome → Option ℕ
  | .ok l => some l.length
  | _ => none

/-- `⌈a / b⌉` for integers, positive `b`. -/
def ceilDivInt (a b : ℤ) : ℤ := (a + b - 1) / b

/-- Modelled from the spec: `estimate(text) = ceil(len(text) / 4)`
(spec §4.1); the code itself has no ceiling estimator. -/
def ceilEstimate (s : List Char) : ℕ := (s.length + 3) / 4

/-- The truncate-strategy cut-point property exactly as the claim states
it: the kept text is empty (cut at body start) or ends at a space of the
body. -/
def CutAtSpaceOrStart (text : List Char) (available_tokens : ℤ) : Prop :=
  truncKept text available_tokens = [] ∨
    ∃ i : ℕ, truncKept text available_tokens = text.take i ∧ text.get? i = some ' '

/-- Body used for the chunk-count counterexample: 112 characters, a space
at every index that is a positive multiple of 7. -/
def c4text : List Char :=
  List.replicate 7 'a' ++ List.flatten (List.replicate 15 (' ' :: List.replicate 6 'a'))

/-- The batch counters named by the order-independence property
(processor.py `self.stats`). -/
structure BatchStats where
  total_files : ℕ := 0
  processed_files : ℕ := 0
  failed_files : ℕ := 0
  total_tokens : ℕ := 0
  deriving DecidableEq

/-- Resolution of one file job: success flag and backend-reported tokens
(`result['success']`, `result['tokens_used']`). -/
structure FileOutcome where
  success : Bool
  tokens_used : ℕ
  deriving DecidableEq

/-- The per-file stats update of the sequential path (`W = 1`), where
`_process_files_sequential`'s processed/failed increments (processor.py
lines 198-202) and `_process_single_file`'s
`self.stats['total_tokens'] += total_tokens` (line 406) all run in the one
main thread, one file after another, so they fold into a single step. -/
def applyOutcome (st : BatchStats) (r : FileOutcome) : BatchStats :=
  if r.success then
    { st with
      processed_files := st.processed_files + 1
      total_tokens := st.total_tokens + r.tokens_used }
  else { st with failed_files := st.failed_files + 1 }

/-- Final stats of a sequential (`W = 1`) run: the outcomes folded in
order in the single thread. -/
def runBatch (init : BatchStats) (l : List FileOutcome) : BatchStats :=
  l.foldl applyOutcome init

/-- Stats-touching events of the concurrent path (`W > 1`).  The
unsynchronized `self.stats['total_tokens'] += total_tokens` that
`_process_single_file` runs on a worker thread (processor.py line 406) is
two separate shared-memory accesses, a load and a store; `tally` is the
main thread's processed/failed update in the `as_completed` loop
(lines 258-262). -/
inductive TokEvent where
  | load (i : ℕ)
  | store (i : ℕ)
  | tally (i : ℕ)
  deriving DecidableEq

/-- The file index an event belongs to. -/
def TokEvent.file : TokEvent → ℕ
  | .load i => i
  | .store i => i
  | .tally i => i

/-- The stats events file `i` contributes, in its program order: a
successful file's worker loads the shared counter, stores the sum, and
then the main thread tallies it; a failed file's worker never touches
`total_tokens` (the increment sits on the success path), so only the
main-thread tally remains. -/
def fileEvents (i : ℕ) (o : FileOutcome) : List TokEvent :=
  if o.success then [.load i, .store i, .tally i] else [.tally i]

/-- A trace is a genuine concurrent execution of the batch: restricted to
any single file it is exactly that file's program-ordered event sequence,
and it mentions no other files.  Across files the interleaving is
arbitrary, as the thread pool makes no cross-file ordering guarantee. -/
def ProgramOrderedTrace (outcomes : List FileOutcome) (tr : List TokEvent) : Prop :=
  (∀ i < outcomes.length,
    tr.filter (fun e => e.file == i) = ((outcomes.get? i).map (fileEvents i)).getD []) ∧
  ∀ e ∈ tr, e.file < outcomes.length

/-- Shared-memory state of a concurrent run: the stats dict plus each
worker's local value of the `self.stats['total_tokens']` load (the
read half of the non-atomic `+=`). -/
structure RaceState where
  stats : BatchStats
  regs : List (ℕ × ℕ)
  deriving DecidableEq

/-- Effect of one event on the shared state: `load i` records the current
`total_tokens` in worker `i`'s local register; `store i` writes back that
register plus file `i`'s backend-reported tokens (the write half of the
`+=` at processor.py line 406 — not the value current at store time);
`tally i` increments `processed_files` or `failed_files`. -/
def stepEvent (outcomes : List FileOutcome) (st : RaceState) : TokEvent → RaceState
  | .load i => { st with regs := (i, st.stats.total_tokens) :: st.regs }
  | .store i =>
    match st.regs.lookup i, outcomes.get? i with
    | some r, some o =>
      { st with stats := { st.stats with total_tokens := r + o.tokens_used } }
    | _, _ => st
  | .tally i =>
    match outcomes.get? i with
    | some o =>
      if o.success then
        { st with stats := { st.stats with processed_files := st.stats.processed_files + 1 } }
      else
        { st with stats := { st.stats with failed_files := st.stats.failed_files + 1 } }
    | none => st

/-- Run a whole event trace from a starting state. -/
def runTrace (outcomes : List FileOutcome) : List TokEvent → RaceState → RaceState
  | [], st => st
  | e :: rest, st => runTrace outcomes rest (stepEvent outcomes st e)

/-- Two successful files whose backend usage reports are 5 and 7 tokens. -/
def c9outcomes : List FileOutcome := [⟨true, 5⟩, ⟨true, 7⟩]

/-- A program-ordered interleaving of `c9outcomes` in which both workers
load `total_tokens` (both read 0) before either stores its sum. -/
def c9trace : List TokEvent :=
  [.load 0, .load 1, .store 0, .store 1, .tally 0, .tally 1]

/-- Offsets `(chunk_start, chunk_end)` recorded in the chunk metadata. -/
def ChunkOffsets (l : List (List Char × Metadata)) : List (ℤ × ℤ) :=
  l.map (fun p => (p.2.chunk_start.getD 0, p.2.chunk_end.getD 0))

/-- `IsCoverChain s n offs`: the offset pairs partition `[s, n)` with no
gap: each pair starts where the previous ended, is non-empty, stays within
`n`, and the last one ends exactly at `n`. -/
def IsCoverChain : ℤ → ℤ → List (ℤ × ℤ) → Prop
  | s, n, [] => s = n
  | s, n, (a, b) :: rest => a = s ∧ s < b ∧ b ≤ n ∧ IsCoverChain b n rest

/-- Every offset pair either ends the text or advances by at least `adv`. -/
def AdvChain (adv n : ℤ) (offs : List (ℤ × ℤ)) : Prop :=
  ∀ o ∈ offs, o.2 = n ∨ o.1 + adv ≤ o.2

/-- Minimum advance of a non-final chunk: the word-boundary back-off
position must exceed `start + 4*csc/5`, so the advance is at least
`⌊4*csc/5⌋ + 1` (and a full chunk advances by `csc ≥ ⌊4*csc/5⌋ + 1`). -/
def minAdv (csc : ℤ) : ℤ := 4 * csc / 5 + 1

/-- A produced chunk, decomposed as the claims describe it: its metadata
offsets `[s, e)` and index `c`, and its combined text
`prompt ++ separator ++ header ++ (overlap prefix when s > 0) ++
body[s:e] ++ (continuation marker when e < len)`. -/
def ChunkWrapped (prompt text : List Char) (csc oc : ℤ) (p : List Char × Metadata) : Prop :=
  ∃ s e : ℤ, ∃ c : ℕ, p.2.chunk_start = some s ∧ p.2.chunk_end = some e ∧
    p.2.chunk_number = some c ∧ p.2.was_split = true ∧
    p.1 = prompt ++ sepChars ++ chunkHeader c (chunkCountEstimate text csc) ++
      (if 0 < s then contFromMarker ++ pySlice text (max 0 (s - oc)) s ++ midMarker else []) ++
      pySlice text s e ++
      (if e < (text.length : ℤ) then contNextMarker else [])

/-- The coverage property of claim C1 for a chunk list: offsets chain over
`[0, len)` with no gaps, concatenating the cores `body[start:end]` in
chunk-index order rebuilds the body, chunk numbers are `1, 2, ...` in
order, and every chunk text wraps its core as described. -/
def SplitCovers (prompt text : List Char) (csc oc : ℤ) (l : List (List Char × Metadata)) : Prop :=
  IsCoverChain 0 (text.length : ℤ) (ChunkOffsets l) ∧
  ((ChunkOffsets l).map (fun o => pySlice text o.1 o.2)).flatten = text ∧
  l.map (fun p => p.2.chunk_number) = (List.range' 1 l.length).map some ∧
  ∀ p ∈ l, ChunkWrapped prompt text csc oc p

/-- The overlap property of claim C7 for a chunk list: chunk start offsets
strictly increase (the cursor never moves backward), and every chunk that
does not start at offset 0 is prefixed (after prompt, separator and
header) by the continuation marker plus exactly the last
`min(overlap_chars, start)` characters before its start offset. -/
def OverlapSpec (prompt text : List Char) (csc oc : ℤ) (l : List (List Char × Metadata)) : Prop :=
  List.Chain' (fun p q => p.2.chunk_start.getD 0 < q.2.chunk_start.getD 0) l ∧
  ∀ p ∈ l, ∀ s : ℤ, p.2.chunk_start = some s → 0 < s →
    ∃ rest : List Char,
      p.1 = prompt ++ sepChars ++
        chunkHeader (p.2.chunk_number.getD 0) (chunkCountEstimate text csc) ++
        contFromMarker ++ pySlice text (max 0 (s - oc)) s ++ midMarker ++ rest ∧
      (pySlice text (max 0 (s - oc)) s).length = (min oc s).toNat

/-! ## Helper lemmas -/

theorem lastIdxOf_lt_length {c : Char} {l : List Char} {i : ℕ}
    (h : lastIdxOf c l = some i) : i < l.length := by
  induction l generalizing i with
  | nil => simp [lastIdxOf] at h
  | cons x xs ih =>
    simp only [lastIdxOf] at h
    cases hx : lastIdxOf c xs with
    | some j =>
      rw [hx] at h
      obtain rfl : j + 1 = i := by simpa using h
      simpa using ih hx
    | none =>
      rw [hx] at h
      by_cases hxc : x = c
      · rw [if_pos hxc] at h
        obtain rfl : (0 : ℕ) = i := by simpa using h
        simp
      · simp [hxc] at h

theorem lastIdxOf_get {c : Char} {l : List Char} {i : ℕ}
    (h : lastIdxOf c l = some i) : l.get? i = some c := by
  induction l generalizing i with
  | nil => simp [lastIdxOf] at h
  | cons x xs ih =>
    simp only [lastIdxOf] at h
    cases hx : lastIdxOf c xs with
    | some j =>
      rw [hx] at h
      obtain rfl : j + 1 = i := by simpa using h
      simpa using ih hx
    | none =>
      rw [hx] at h
      by_cases hxc : x = c
      · simp [hxc] at h
        subst h
        simp [hxc]
      · simp [hxc] at h

theorem lastIdxOf_eq_none {c : Char} {l : List Char} :
    lastIdxOf c l = none ↔ c ∉ l := by
  induction l with
  | nil => simp [lastIdxOf]
  | cons x xs ih =>
    simp only [lastIdxOf]
    cases hx : lastIdxOf c xs with
    | some j => simp [← ih, hx]
    | none =>
      by_cases hxc : x = c
      · simp [hxc, ← ih, hx]
      · simp [hxc, ← ih, hx, Ne.symm hxc]

theorem pySlice_eq_drop_take (s : List Char) {a b : ℤ} (ha : 0 ≤ a) (hab : a ≤ b)
    (hb : b ≤ (s.length : ℤ)) :
    pySlice s a b = (s.drop a.toNat).take (b.toNat - a.toNat) := by
  simp only [pySlice]
  have hn : a ≤ (s.length : ℤ) := le_trans hab hb
  rw [if_neg (by omega), if_neg (by omega), min_eq_left hn, min_eq_left hb]
  congr 1
  omega

theorem pySlice_length (s : List Char) {a b : ℤ} (ha : 0 ≤ a) (hab : a ≤ b)
    (hb : b ≤ (s.length : ℤ)) :
    ((pySlice s a b).length : ℤ) = b - a := by
  rw [pySlice_eq_drop_take s ha hab hb]
  simp only [List.length_take, List.length_drop]
  omega

theorem pySlice_append (s : List Char) {a b c : ℤ} (ha : 0 ≤ a) (hab : a ≤ b)
    (hbc : b ≤ c) (hc : c ≤ (s.length : ℤ)) :
    pySlice s a b ++ pySlice s b c = pySlice s a c := by
  rw [pySlice_eq_drop_take s ha hab (le_trans hbc hc),
    pySlice_eq_drop_take s (le_trans ha hab) hbc hc,
    pySlice_eq_drop_take s ha (le_trans hab hbc) hc]
  have h1 : c.toNat - a.toNat = (b.toNat - a.toNat) + (c.toNat - b.toNat) := by omega
  rw [h1, List.take_add]
  congr 1
  rw [List.drop_drop]
  congr 2
  omega

theorem pySlice_zero_length (s : List Char) : pySlice s 0 (s.length : ℤ) = s := by
  rw [pySlice_eq_drop_take s le_rfl (by positivity) le_rfl]
  simp

theorem pyRfind_cases (s : List Char) (c : Char) {a b : ℤ} (ha : 0 ≤ a) (hab : a ≤ b)
    (hb : b ≤ (s.length : ℤ)) :
    pyRfind s c a b = -1 ∨ (a ≤ pyRfind s c a b ∧ pyRfind s c a b < b) := by
  simp only [pyRfind]
  have hn : a ≤ (s.length : ℤ) := le_trans hab hb
  cases hidx : lastIdxOf c (pySlice s a b) with
  | none => exact Or.inl rfl
  | some i =>
    right
    have hlen : i < (pySlice s a b).length := lastIdxOf_lt_length hidx
    have hL : ((pySlice s a b).length : ℤ) = b - a := pySlice_length s ha hab hb
    rw [if_neg (by omega), min_eq_left hn]
    dsimp only
    constructor
    · omega
    · omega

theorem stepEnd_bounds (text : List Char) {csc s : ℤ} (hcsc : 0 < csc) (hs : 0 ≤ s)
    (hlt : s < (text.length : ℤ)) :
    s < stepEnd text csc s ∧ stepEnd text csc s ≤ (text.length : ℤ) ∧
      (stepEnd text csc s = (text.length : ℤ) ∨ s + minAdv csc ≤ stepEnd text csc s) := by
  simp only [stepEnd, minAdv]
  by_cases h1 : min (s + csc) (text.length : ℤ) < (text.length : ℤ)
  · rw [if_pos h1]
    have he1 : min (s + csc) (text.length : ℤ) = s + csc := by omega
    by_cases h2 :
        5 * pyRfind text ' ' s (min (s + csc) (text.length : ℤ)) > 5 * s + 4 * csc
    · rw [if_pos h2]
      rcases pyRfind_cases text ' ' hs (le_min (by omega) (by omega))
          (min_le_right (s + csc) (text.length : ℤ)) with hneg | ⟨hge, hlt2⟩
      · omega
      · omega
    · rw [if_neg h2]
      omega
  · rw [if_neg h1]
    omega

theorem mkChunk_start (text prompt : List Char) (csc oc : ℤ) (meta : Metadata) (s : ℤ) (c : ℕ) :
    (mkChunk text prompt csc oc meta s c).2.chunk_start = some s := rfl

theorem mkChunk_end (text prompt : List Char) (csc oc : ℤ) (meta : Metadata) (s : ℤ) (c : ℕ) :
    (mkChunk text prompt csc oc meta s c).2.chunk_end = some (stepEnd text csc s) := rfl

theorem mkChunk_number (text prompt : List Char) (csc oc : ℤ) (meta : Metadata) (s : ℤ) (c : ℕ) :
    (mkChunk text prompt csc oc meta s c).2.chunk_number = some c := rfl

theorem splitLoop_cons (text prompt : List Char) (csc oc : ℤ) (meta : Metadata) (fuel : ℕ)
    (s : ℤ) (c : ℕ) (acc : List (List Char × Metadata)) (hs : s < (text.length : ℤ))
    (h0 : ¬ csc = 0) :
    splitLoop text prompt csc oc meta (fuel + 1) s c acc =
      splitLoop text prompt csc oc meta fuel (stepEnd text csc s) (c + 1)
        (mkChunk text prompt csc oc meta s c :: acc) := by
  simp only [splitLoop, if_pos hs, if_neg h0]

theorem splitLoop_done (text prompt : List Char) (csc oc : ℤ) (meta : Metadata) (fuel : ℕ)
    (s : ℤ) (c : ℕ) (acc : List (List Char × Metadata)) (hs : ¬ s < (text.length : ℤ)) :
    splitLoop text prompt csc oc meta fuel s c acc = .ok acc.reverse := by
  cases fuel with
  | zero => simp only [splitLoop, if_neg hs]
  | succ fuel => simp only [splitLoop, if_neg hs]

theorem splitLoop_invariant (text prompt : List Char) (csc oc : ℤ) (meta : Metadata)
    (hcsc : 0 < csc) :
    ∀ fuel : ℕ, ∀ s : ℤ, ∀ c : ℕ, ∀ acc : List (List Char × Metadata),
      0 ≤ s → s ≤ (text.length : ℤ) → ((text.length : ℤ) - s).toNat ≤ fuel →
      ∃ l, splitLoop text prompt csc oc meta fuel s c acc = .ok (acc.reverse ++ l) ∧
        IsCoverChain s (text.length : ℤ) (ChunkOffsets l) ∧
        AdvChain (minAdv csc) (text.length : ℤ) (ChunkOffsets l) ∧
        (∀ p ∈ l, ∃ s' : ℤ, ∃ c' : ℕ, 0 ≤ s' ∧ p = mkChunk text prompt csc oc meta s' c') ∧
        l.map (fun p => p.2.chunk_number) = (List.range' c l.length).map some := by
  intro fuel
  induction fuel with
  | zero =>
    intro s c acc h0 hle hfuel
    have hsn : s = (text.length : ℤ) := by omega
    refine ⟨[], ?_, ?_, ?_, ?_, ?_⟩
    · rw [splitLoop_done text prompt csc oc meta 0 s c acc (by omega)]
      simp
    · simpa [ChunkOffsets, IsCoverChain] using hsn
    · simp [AdvChain, ChunkOffsets]
    · simp
    · simp
  | succ fuel ih =>
    intro s c acc h0 hle hfuel
    by_cases hs : s < (text.length : ℤ)
    · obtain ⟨hlt, hle2, hadv⟩ := stepEnd_bounds text hcsc h0 hs
      obtain ⟨l, hres, hchain, hadvc, hshape, hnum⟩ :=
        ih (stepEnd text csc s) (c + 1) (mkChunk text prompt csc oc meta s c :: acc)
          (by omega) hle2 (by omega)
      refine ⟨mkChunk text prompt csc oc meta s c :: l, ?_, ?_, ?_, ?_, ?_⟩
      · rw [splitLoop_cons text prompt csc oc meta fuel s c acc hs (by omega), hres]
        simp
      · simp only [ChunkOffsets, List.map_cons, mkChunk_start, mkChunk_end, Option.getD_some]
        exact ⟨rfl, hlt, hle2, hchain⟩
      · intro o ho
        simp only [ChunkOffsets, List.map_cons, mkChunk_start, mkChunk_end,
          Option.getD_some, List.mem_cons] at ho
        rcases ho with rfl | ho
        · simpa using hadv
        · exact hadvc o ho
      · intro p hp
        rcases List.mem_cons.mp hp with rfl | hp
        · exact ⟨s, c, h0, rfl⟩
        · exact hshape p hp
      · simp only [List.map_cons, mkChunk_number, List.length_cons, List.range'_succ,
          List.map_cons]
        rw [hnum]
    · have hsn : s = (text.length : ℤ) := by omega
      refine ⟨[], ?_, ?_, ?_, ?_, ?_⟩
      · rw [splitLoop_done text prompt csc oc meta (fuel + 1) s c acc hs]
        simp
      · simpa [ChunkOffsets, IsCoverChain] using hsn
      · simp [AdvChain, ChunkOffsets]
      · simp
      · simp

theorem coverChain_flatten (text : List Char) :
    ∀ offs : List (ℤ × ℤ), ∀ s : ℤ, IsCoverChain s (text.length : ℤ) offs → 0 ≤ s →
      (offs.map (fun o => pySlice text o.1 o.2)).flatten = pySlice text s (text.length : ℤ) := by
  intro offs
  induction offs with
  | nil =>
    intro s hc hs
    have : s = (text.length : ℤ) := hc
    subst this
    rw [pySlice_eq_drop_take text hs le_rfl le_rfl]
    simp
  | cons o rest ih =>
    intro s hc hs
    obtain ⟨ha, hsb, hbn, hrest⟩ := hc
    simp only [List.map_cons, List.flatten_cons]
    rw [ih o.2 hrest (by omega)]
    have : (o.1, o.2) = o := rfl
    rw [← this] at *
    rw [ha]
    exact pySlice_append text hs (by omega) (by omega) le_rfl

theorem coverChain_bounds :
    ∀ offs : List (ℤ × ℤ), ∀ s n : ℤ, IsCoverChain s n offs → 0 ≤ s →
      ∀ o ∈ offs, 0 ≤ o.1 ∧ o.1 < o.2 ∧ o.2 ≤ n := by
  intro offs
  induction offs with
  | nil => intro s n _ _ o ho; simp at ho
  | cons p rest ih =>
    intro s n hc hs o ho
    obtain ⟨ha, hsb, hbn, hrest⟩ := hc
    rcases List.mem_cons.mp ho with rfl | ho
    · obtain ⟨o1, o2⟩ := o
      simp only at ha ⊢
      omega
    · exact ih p.2 n hrest (by omega) o ho

theorem coverChain_starts_mono :
    ∀ offs : List (ℤ × ℤ), ∀ s n : ℤ, IsCoverChain s n offs →
      List.Chain' (fun x y : ℤ × ℤ => x.1 < y.1) offs := by
  intro offs
  induction offs with
  | nil => intro s n _; simp
  | cons p rest ih =>
    intro s n hc
    obtain ⟨ha, hsb, hbn, hrest⟩ := hc
    refine List.chain'_cons'.mpr ⟨?_, ih p.2 n hrest⟩
    intro q hq
    cases rest with
    | nil => simp at hq
    | cons r rest' =>
      obtain rfl : r = q := by simpa using hq
      obtain ⟨ha', hsb', _, _⟩ := hrest
      omega

theorem coverChain_length_le :
    ∀ offs : List (ℤ × ℤ), ∀ s n adv : ℤ, IsCoverChain s n offs → AdvChain adv n offs →
      0 < adv → offs ≠ [] → ((offs.length : ℤ) - 1) * adv + s + 1 ≤ n := by
  intro offs
  induction offs with
  | nil => intro s n adv _ _ _ h; exact absurd rfl h
  | cons p rest ih =>
    intro s n adv hc hadv hpos _
    obtain ⟨ha, hsb, hbn, hrest⟩ := hc
    cases rest with
    | nil =>
      simp only [List.length_cons, List.length_nil]
      omega
    | cons r rest' =>
      have hner : p.2 < n := by
        obtain ⟨ha', hsb', hbn', _⟩ := hrest
        omega
      have hstep : p.1 + adv ≤ p.2 := by
        rcases hadv p (List.mem_cons_self p _) with h | h
        · omega
        · exact h
      have ihr := ih p.2 n adv hrest (fun o ho => hadv o (List.mem_cons_of_mem p ho))
        hpos (by simp)
      simp only [List.length_cons] at ihr ⊢
      push_cast at ihr ⊢
      have h2 : ((rest'.length : ℤ) + 1 + 1 - 1) * adv
          = ((rest'.length : ℤ) + 1 - 1) * adv + adv := by ring
      omega

theorem mkChunkText_decomp (text : List Char) (csc oc s : ℤ) :
    mkChunkText text csc oc s =
      (if 0 < s then contFromMarker ++ pySlice text (max 0 (s - oc)) s ++ midMarker else []) ++
      pySlice text s (stepEnd text csc s) ++
      (if stepEnd text csc s < (text.length : ℤ) then contNextMarker else []) := by
  simp only [mkChunkText]
  by_cases h1 : 0 < s <;> by_cases h2 : stepEnd text csc s < (text.length : ℤ) <;>
    simp [h1, h2, List.append_assoc]

theorem mkChunk_fst (text prompt : List Char) (csc oc : ℤ) (meta : Metadata) (s : ℤ) (c : ℕ) :
    (mkChunk text prompt csc oc meta s c).1 =
      prompt ++ sepChars ++ chunkHeader c (chunkCountEstimate text csc) ++
        mkChunkText text csc oc s := rfl

theorem mkChunk_was_split (text prompt : List Char) (csc oc : ℤ) (meta : Metadata)
    (s : ℤ) (c : ℕ) : (mkChunk text prompt csc oc meta s c).2.was_split = true := rfl

theorem mkChunk_budget_fields (text prompt : List Char) (csc oc : ℤ) (meta : Metadata)
    (s : ℤ) (c : ℕ) :
    (mkChunk text prompt csc oc meta s c).2.prompt_tokens = meta.prompt_tokens ∧
    (mkChunk text prompt csc oc meta s c).2.text_tokens = meta.text_tokens ∧
    (mkChunk text prompt csc oc meta s c).2.available_tokens = meta.available_tokens :=
  ⟨rfl, rfl, rfl⟩

/-- C1, packaged: a positive chunk budget yields an `ok` chunk list
satisfying the full coverage description. -/
theorem splitter_covers_of_pos (prompt text : List Char) (meta : Metadata) (avail : ℤ)
    (h : 0 < avail) :
    ∃ l, split_content prompt text avail meta text.length = .ok l ∧
      SplitCovers prompt text (avail * 4) (((meta.overlap_tokens.getD 300 : ℕ) : ℤ) * 4) l := by
  have hcsc : (0 : ℤ) < avail * 4 := by omega
  obtain ⟨l, hres, hchain, hadv, hshape, hnum⟩ :=
    splitLoop_invariant text prompt (avail * 4) (((meta.overlap_tokens.getD 300 : ℕ) : ℤ) * 4)
      meta hcsc text.length 0 1 [] le_rfl (by positivity) (by omega)
  refine ⟨l, by simpa [split_content] using hres, hchain, ?_, hnum, ?_⟩
  · rw [coverChain_flatten text (ChunkOffsets l) 0 hchain le_rfl]
    exact pySlice_zero_length text
  · intro p hp
    obtain ⟨s', c', hs0, rfl⟩ := hshape p hp
    refine ⟨s', stepEnd text (avail * 4) s', c', mkChunk_start _ _ _ _ _ _ _,
      mkChunk_end _ _ _ _ _ _ _, mkChunk_number _ _ _ _ _ _ _,
      mkChunk_was_split _ _ _ _ _ _ _, ?_⟩
    rw [mkChunk_fst, mkChunkText_decomp]
    simp [List.append_assoc]

theorem combine_fits (prompt text : List Char) (L mt sm : ℤ) (strategy : String) (fuel : ℕ)
    (h : (tokenEstimate text : ℤ) ≤ availableTokens prompt L mt sm) :
    combine_prompt_and_text prompt text L mt sm strategy fuel =
      .single (prompt ++ sepChars ++ text) (combineMeta prompt text L mt sm strategy) := by
  simp only [combine_prompt_and_text]
  rw [if_pos h]

/-! ## Claim theorems -/

/-- C2: whenever the body's estimated tokens fit into the available
budget, `combine_prompt_and_text` returns exactly
`prompt ++ separator ++ body` with `was_truncated = false` and
`was_split = false`, for every strategy string. -/
theorem fits_returns_verbatim (prompt text : List Char) (L mt sm : ℤ) (strategy : String)
    (fuel : ℕ) (h : (tokenEstimate text : ℤ) ≤ availableTokens prompt L mt sm) :
    combine_prompt_and_text prompt text L mt sm strategy fuel =
      .single (prompt ++ sepChars ++ text) (combineMeta prompt text L mt sm strategy) ∧
    (combineMeta prompt text L mt sm strategy).was_truncated = false ∧
    (combineMeta prompt text L mt sm strategy).was_split = false :=
  ⟨combine_fits prompt text L mt sm strategy fuel h, rfl, rfl⟩

theorem fits_returns_verbatim_witness :
    ((tokenEstimate ("hi").data : ℤ) ≤ availableTokens [] 3000 100 0) ∧
    (combine_prompt_and_text [] ("hi").data 3000 100 0 ("split") 0 =
      .single ([] ++ sepChars ++ ("hi").data) (combineMeta [] ("hi").data 3000 100 0 ("split")) ∧
    (combineMeta [] ("hi").data 3000 100 0 ("split")).was_truncated = false ∧
    (combineMeta [] ("hi").data 3000 100 0 ("split")).was_split = false) :=
  ⟨by decide, fits_returns_verbatim [] ("hi").data 3000 100 0 ("split") 0 (by decide)⟩

/-- C8: with the `'fail'` strategy, `combine_prompt_and_text` raises the
context-overflow error (carrying prompt/body/total tokens, the context
limit and the available tokens) exactly when the body's estimated tokens
exceed the available budget, and returns the verbatim combination when the
body fits. -/
theorem fail_strategy_iff_overflow (prompt text : List Char) (L mt sm : ℤ) (fuel : ℕ) :
    (combine_prompt_and_text prompt text L mt sm ("fail") fuel =
        .error (.contextOverflow (tokenEstimate prompt) (tokenEstimate text)
          (tokenEstimate prompt + tokenEstimate sepChars + tokenEstimate text) L
          (availableTokens prompt L mt sm)) ↔
      availableTokens prompt L mt sm < (tokenEstimate text : ℤ)) ∧
    ((tokenEstimate text : ℤ) ≤ availableTokens prompt L mt sm →
      combine_prompt_and_text prompt text L mt sm ("fail") fuel =
        .single (prompt ++ sepChars ++ text) (combineMeta prompt text L mt sm ("fail"))) := by
  by_cases h : (tokenEstimate text : ℤ) ≤ availableTokens prompt L mt sm
  · refine ⟨?_, fun _ => combine_fits prompt text L mt sm ("fail") fuel h⟩
    rw [combine_fits prompt text L mt sm ("fail") fuel h]
    constructor
    · intro habs
      exact absurd habs (by simp)
    · intro habs
      omega
  · constructor
    · constructor
      · intro _
        omega
      · intro _
        simp only [combine_prompt_and_text]
        rw [if_neg h]
    · intro hfit
      exact absurd hfit h

theorem fail_strategy_iff_overflow_witness :
    combine_prompt_and_text [] (List.replicate 40 'z') 10 2048 0 ("fail") 0 =
      .error (.contextOverflow (tokenEstimate ([] : List Char))
        (tokenEstimate (List.replicate 40 'z'))
        (tokenEstimate ([] : List Char) + tokenEstimate sepChars +
          tokenEstimate (List.replicate 40 'z')) 10
        (availableTokens [] 10 2048 0)) :=
  (fail_strategy_iff_overflow [] (List.replicate 40 'z') 10 2048 0 0).1.mpr (by decide)

/-- C10: the strategy string is only examined when the body does not fit:
a fitting body yields the combined content for every strategy string, and
an unknown-strategy error can only arise for an oversize body. -/
theorem unknown_strategy_only_oversize (prompt text : List Char) (L mt sm : ℤ)
    (strategy : String) (fuel : ℕ) :
    ((tokenEstimate text : ℤ) ≤ availableTokens prompt L mt sm →
      combine_prompt_and_text prompt text L mt sm strategy fuel =
        .single (prompt ++ sepChars ++ text) (combineMeta prompt text L mt sm strategy)) ∧
    (∀ s' : String, combine_prompt_and_text prompt text L mt sm strategy fuel =
        .error (.unknownStrategy s') →
      availableTokens prompt L mt sm < (tokenEstimate text : ℤ)) := by
  refine ⟨fun h => combine_fits prompt text L mt sm strategy fuel h, ?_⟩
  intro s' herr
  by_contra hle
  push_neg at hle
  rw [combine_fits prompt text L mt sm strategy fuel hle] at herr
  exact absurd herr (by simp)

theorem unknown_strategy_only_oversize_witness :
    combine_prompt_and_text [] ("hi").data 3000 100 0 ("bogus") 0 =
      .single ([] ++ sepChars ++ ("hi").data) (combineMeta [] ("hi").data 3000 100 0 ("bogus")) :=
  (unknown_strategy_only_oversize [] ("hi").data 3000 100 0 ("bogus") 0).1 (by decide)

theorem splitter_covers_of_pos_witness :
    (0 : ℤ) < 1 ∧
    ∃ l, split_content [] ("hello").data 1 ({} : Metadata) ("hello").data.length = .ok l ∧
      SplitCovers [] ("hello").data (1 * 4)
        (((({} : Metadata).overlap_tokens.getD 300 : ℕ) : ℤ) * 4) l :=
  ⟨by decide, splitter_covers_of_pos [] ("hello").data ({} : Metadata) 1 (by decide)⟩

/-- C4 counterexample: on a 112-character body whose spaces sit at every
positive multiple of 7, a chunk budget of `available_tokens = 2`
(`chunk_size_chars = 8`) produces 16 chunks, exceeding the claimed bound
`ceil(112 / 8) + 1 = 15`: the word-boundary back-off advances only 7
characters per chunk. -/
theorem split_count_exceeds_claimed_bound :
    okLength (split_content [] c4text 2 ({} : Metadata) c4text.length) = some 16 ∧
    ¬ ((16 : ℤ) ≤ ceilDivInt (c4text.length : ℤ) (2 * 4) + 1) := by
  constructor
  · rfl
  · decide

/-- C4 amended: for a positive chunk budget the chunk count is at most
`ceil(body_length / a) + 1` where `a = 4*chunk_size_chars/5 + 1` is the
minimum advance a non-final chunk can make (the word-boundary back-off
can shrink a chunk to just over 80% of `chunk_size_chars`, so
`chunk_size_chars` itself is not a valid divisor). -/
theorem split_chunk_count_bound (prompt text : List Char) (meta : Metadata) (avail : ℤ)
    (h : 0 < avail) :
    ∃ l, split_content prompt text avail meta text.length = .ok l ∧
      (l.length : ℤ) ≤ ceilDivInt (text.length : ℤ) (minAdv (avail * 4)) + 1 := by
  have hcsc : (0 : ℤ) < avail * 4 := by omega
  have hadvpos : 0 < minAdv (avail * 4) := by
    unfold minAdv
    omega
  obtain ⟨l, hres, hchain, hadv, _, _⟩ :=
    splitLoop_invariant text prompt (avail * 4) (((meta.overlap_tokens.getD 300 : ℕ) : ℤ) * 4)
      meta hcsc text.length 0 1 [] le_rfl (by positivity) (by omega)
  refine ⟨l, by simpa [split_content] using hres, ?_⟩
  rcases eq_or_ne l [] with rfl | hne
  · have h0 : 0 ≤ ceilDivInt (text.length : ℤ) (minAdv (avail * 4)) := by
      unfold ceilDivInt
      apply Int.ediv_nonneg <;> omega
    simp only [List.length_nil, Nat.cast_zero]
    omega
  · have hlen : (ChunkOffsets l).length = l.length := by simp [ChunkOffsets]
    have hcount := coverChain_length_le (ChunkOffsets l) 0 (text.length : ℤ)
      (minAdv (avail * 4)) hchain hadv hadvpos (by simpa [ChunkOffsets] using hne)
    rw [hlen] at hcount
    have h1 : ((l.length : ℤ) - 1) * minAdv (avail * 4) ≤ (text.length : ℤ) - 1 := by
      linarith
    have h2 : (l.length : ℤ) - 1 ≤ ((text.length : ℤ) - 1) / minAdv (avail * 4) := by
      rw [Int.le_ediv_iff_mul_le hadvpos]
      exact h1
    have h3 : ((text.length : ℤ) - 1) / minAdv (avail * 4) + 1
        = ((text.length : ℤ) - 1 + 1 * minAdv (avail * 4)) / minAdv (avail * 4) := by
      rw [Int.add_mul_ediv_right _ _ (by omega : minAdv (avail * 4) ≠ 0)]
    have h4 : ceilDivInt (text.length : ℤ) (minAdv (avail * 4))
        = ((text.length : ℤ) - 1 + 1 * minAdv (avail * 4)) / minAdv (avail * 4) := by
      unfold ceilDivInt
      congr 1
      ring
    linarith

theorem split_chunk_count_bound_witness :
    (0 : ℤ) < 1 ∧
    ∃ l, split_content [] ("hello").data 1 ({} : Metadata) ("hello").data.length = .ok l ∧
      (l.length : ℤ) ≤ ceilDivInt ((("hello").data.length : ℕ) : ℤ) (minAdv (1 * 4)) + 1 :=
  ⟨by decide, split_chunk_count_bound [] ("hello").data ({} : Metadata) 1 (by decide)⟩

/-- C7: under the split strategy, every chunk whose start offset is
positive (i.e. every chunk but the first) is prefixed — after prompt,
separator and header — by the fixed continuation marker plus exactly the
last `min(overlap_chars, start)` characters preceding its start offset,
where `overlap_chars` is 4 times the metadata's `overlap_tokens` setting
(defaulting to 300); and the chunk start offsets strictly increase, so the
cursor never moves backward. -/
theorem split_overlap_exact (prompt text : List Char) (meta : Metadata) (avail : ℤ)
    (h : 0 < avail) :
    ∃ l, split_content prompt text avail meta text.length = .ok l ∧
      OverlapSpec prompt text (avail * 4) (((meta.overlap_tokens.getD 300 : ℕ) : ℤ) * 4) l := by
  have hcsc : (0 : ℤ) < avail * 4 := by omega
  have hoc0 : (0 : ℤ) ≤ ((meta.overlap_tokens.getD 300 : ℕ) : ℤ) * 4 := by positivity
  obtain ⟨l, hres, hchain, _, hshape, _⟩ :=
    splitLoop_invariant text prompt (avail * 4) (((meta.overlap_tokens.getD 300 : ℕ) : ℤ) * 4)
      meta hcsc text.length 0 1 [] le_rfl (by positivity) (by omega)
  refine ⟨l, by simpa [split_content] using hres, ?_, ?_⟩
  · have hmono := coverChain_starts_mono (ChunkOffsets l) 0 (text.length : ℤ) hchain
    exact (List.chain'_map (fun p : List Char × Metadata =>
      (p.2.chunk_start.getD 0, p.2.chunk_end.getD 0))).mp hmono
  · intro p hp s hstart hspos
    obtain ⟨s', c', hs0, rfl⟩ := hshape p hp
    rw [mkChunk_start] at hstart
    obtain rfl : s = s' := by
      injection hstart with h
      exact h.symm
    have hmem : (s, stepEnd text (avail * 4) s) ∈ ChunkOffsets l :=
      List.mem_map_of_mem
        (fun p : List Char × Metadata => (p.2.chunk_start.getD 0, p.2.chunk_end.getD 0)) hp
    obtain ⟨hb0, hblt, hble⟩ :=
      coverChain_bounds (ChunkOffsets l) 0 (text.length : ℤ) hchain le_rfl _ hmem
    dsimp only at hb0 hblt hble
    refine ⟨pySlice text s (stepEnd text (avail * 4) s) ++
      (if stepEnd text (avail * 4) s < (text.length : ℤ) then contNextMarker else []), ?_, ?_⟩
    · rw [mkChunk_fst, mkChunkText_decomp, if_pos hspos, mkChunk_number]
      simp [List.append_assoc]
    · have hlen := pySlice_length text
        (a := max 0 (s - ((meta.overlap_tokens.getD 300 : ℕ) : ℤ) * 4)) (b := s)
        (by omega) (by omega) (by omega)
      omega

theorem split_overlap_exact_witness :
    (0 : ℤ) < 1 ∧
    ∃ l, split_content [] ("hello").data 1 ({} : Metadata) ("hello").data.length = .ok l ∧
      OverlapSpec [] ("hello").data (1 * 4)
        (((({} : Metadata).overlap_tokens.getD 300 : ℕ) : ℤ) * 4) l :=
  ⟨by decide, split_overlap_exact [] ("hello").data ({} : Metadata) 1 (by decide)⟩

theorem truncKept_spec (text : List Char) (avail : ℤ) (h0 : 0 ≤ avail) :
    ((truncKept text avail).length : ℤ) ≤ avail * 4 ∧
    text.take (truncKept text avail).length = truncKept text avail ∧
    ((' ' ∈ text.take (avail * 4).toNat) →
      text.get? (truncKept text avail).length = some ' ') ∧
    ((' ' ∉ text.take (avail * 4).toNat) →
      truncKept text avail = text.take (avail * 4).toNat) := by
  have hpt : pyTakeTo text (avail * 4) = text.take (avail * 4).toNat := by
    unfold pyTakeTo
    rw [if_pos (by omega)]
  unfold truncKept rsplitBeforeLastSpace
  rw [hpt]
  set k := (avail * 4).toNat with hk
  cases hidx : lastIdxOf ' ' (text.take k) with
  | none =>
    have hns : ' ' ∉ text.take k := lastIdxOf_eq_none.mp hidx
    dsimp only
    refine ⟨?_, ?_, ?_, ?_⟩
    · rw [List.length_take]
      omega
    · rw [List.length_take]
      apply List.take_eq_take.mpr
      omega
    · intro hmem
      exact absurd hmem hns
    · intro _
      rfl
  | some i =>
    have hilt : i < (text.take k).length := lastIdxOf_lt_length hidx
    have hgot : (text.take k).get? i = some ' ' := lastIdxOf_get hidx
    rw [List.length_take] at hilt
    have hik : i < k := by omega
    have hin : i < text.length := by omega
    dsimp only
    have htt : (text.take k).take i = text.take i := by
      rw [List.take_take]
      congr 1
      omega
    refine ⟨?_, ?_, ?_, ?_⟩
    · rw [htt, List.length_take]
      omega
    · rw [htt, List.length_take]
      apply List.take_eq_take.mpr
      omega
    · intro _
      rw [htt, List.length_take]
      have hmin : min i text.length = i := by omega
      rw [hmin, ← List.get?_take hik]
      exact hgot
    · intro hns
      exact absurd (List.get?_mem hgot) hns

/-- C5 amended: with a non-negative available budget and an oversize body,
the truncate strategy keeps at most `available_tokens * 4` characters, the
kept text is a prefix of the body, and the cut point is at the last space
inside the first `available_tokens * 4` characters when that window has a
space at all — but when the window contains no space the whole window is
kept, cutting mid-word (the claim's "never inside a word" fails there, see
the counterexample). -/
theorem truncate_cut_spec (prompt text : List Char) (L mt sm : ℤ) (fuel : ℕ) (avail : ℤ)
    (havail : avail = availableTokens prompt L mt sm) (h0 : 0 ≤ avail)
    (hov : avail < (tokenEstimate text : ℤ)) :
    combine_prompt_and_text prompt text L mt sm ("truncate") fuel =
      .single (prompt ++ sepChars ++
        (truncKept text avail ++ truncNotice (text.length - (truncKept text avail).length)))
        { combineMeta prompt text L mt sm ("truncate") with
          was_truncated := true
          truncated_chars := some ((truncKept text avail ++
            truncNotice (text.length - (truncKept text avail).length)).length
            - (truncKept text avail).length) } ∧
    ((truncKept text avail).length : ℤ) ≤ avail * 4 ∧
    text.take (truncKept text avail).length = truncKept text avail ∧
    ((' ' ∈ text.take (avail * 4).toNat) →
      text.get? (truncKept text avail).length = some ' ') ∧
    ((' ' ∉ text.take (avail * 4).toNat) →
      truncKept text avail = text.take (avail * 4).toNat) := by
  obtain ⟨h1, h2, h3, h4⟩ := truncKept_spec text avail h0
  refine ⟨?_, h1, h2, h3, h4⟩
  have hlen : (text.length : ℤ) > avail * 4 := by
    simp only [tokenEstimate] at hov
    omega
  subst havail
  simp only [combine_prompt_and_text]
  rw [if_neg (by omega), if_pos hlen]

theorem truncate_cut_spec_witness :
    ((1 : ℤ) = availableTokens [] 2050 2048 0 ∧ (0 : ℤ) ≤ 1 ∧
      (1 : ℤ) < (tokenEstimate ("ab cdefgh").data : ℤ)) ∧
    (combine_prompt_and_text [] ("ab cdefgh").data 2050 2048 0 ("truncate") 0 =
      .single ([] ++ sepChars ++
        (truncKept ("ab cdefgh").data 1 ++
          truncNotice (("ab cdefgh").data.length - (truncKept ("ab cdefgh").data 1).length)))
        { combineMeta [] ("ab cdefgh").data 2050 2048 0 ("truncate") with
          was_truncated := true
          truncated_chars := some ((truncKept ("ab cdefgh").data 1 ++
            truncNotice (("ab cdefgh").data.length -
              (truncKept ("ab cdefgh").data 1).length)).length
            - (truncKept ("ab cdefgh").data 1).length) } ∧
    ((truncKept ("ab cdefgh").data 1).length : ℤ) ≤ 1 * 4 ∧
    ("ab cdefgh").data.take (truncKept ("ab cdefgh").data 1).length
      = truncKept ("ab cdefgh").data 1 ∧
    ((' ' ∈ ("ab cdefgh").data.take ((1 : ℤ) * 4).toNat) →
      ("ab cdefgh").data.get? (truncKept ("ab cdefgh").data 1).length = some ' ') ∧
    ((' ' ∉ ("ab cdefgh").data.take ((1 : ℤ) * 4).toNat) →
      truncKept ("ab cdefgh").data 1 = ("ab cdefgh").data.take ((1 : ℤ) * 4).toNat)) :=
  ⟨⟨by decide, by decide, by decide⟩,
    truncate_cut_spec [] ("ab cdefgh").data 2050 2048 0 0 1 (by decide) (by decide) (by decide)⟩

/-- C5 counterexample: `available_tokens = 1` (`max_body_chars = 4`) and
body `"abcdefgh"`: the truncate branch keeps `"abcd"`, which neither ends
at a space of the body nor is empty — the cut lands inside the word
because `rsplit(' ', 1)` on a space-free prefix returns the whole prefix. -/
theorem truncate_cuts_mid_word :
    (availableTokens [] 2050 2048 0 = 1 ∧
      combine_prompt_and_text [] ("abcdefgh").data 2050 2048 0 ("truncate") 0 =
        .single (([] : List Char) ++ sepChars ++ (("abcd").data ++ truncNotice 4))
          { combineMeta [] ("abcdefgh").data 2050 2048 0 ("truncate") with
            was_truncated := true
            truncated_chars := some (truncNotice 4).length }) ∧
    ¬ CutAtSpaceOrStart ("abcdefgh").data 1 := by
  refine ⟨⟨by decide, by decide⟩, ?_⟩
  rintro (habs | ⟨i, _, hsp⟩)
  · exact absurd habs (by decide)
  · exact absurd (List.get?_mem hsp) (by decide)

theorem splitLoop_stuck_abcd (meta : Metadata) : ∀ fuel : ℕ, ∀ c : ℕ,
    ∀ acc : List (List Char × Metadata),
    splitLoop ("abcd").data [] (-4) 1200 meta fuel (-1) c acc = .outOfFuel := by
  intro fuel
  induction fuel with
  | zero =>
    intro c acc
    simp only [splitLoop]
    rw [if_pos (by decide)]
  | succ fuel ih =>
    intro c acc
    rw [splitLoop_cons ("abcd").data [] (-4) 1200 meta fuel (-1) c acc (by decide) (by decide)]
    rw [show stepEnd ("abcd").data (-4) (-1) = -1 from by decide]
    exact ih _ _

/-- C3: the splitter has no non-positive-budget guard.  On the concrete
input `prompt = ""`, `body = "abcd"`, `max_context_length = 2548`,
`max_tokens = 2048`, `safety_margin = 500` the available budget is `-1`
(`chunk_size_chars = -4`), and the split strategy's loop never terminates
(for every fuel value it is still running): no `NonPositiveChunkBudget`
error is produced before the loop.  (With `chunk_size_chars = 0` the loop
instead dies with `ZeroDivisionError` inside its body.) -/
theorem split_nonpositive_budget_diverges : ∀ fuel : ℕ,
    combine_prompt_and_text [] ("abcd").data 2548 2048 500 ("split") fuel
      = .outOfFuel := by
  intro fuel
  have hsc : split_content [] ("abcd").data (-1)
      (combineMeta [] ("abcd").data 2548 2048 500 ("split")) fuel = .outOfFuel := by
    show splitLoop ("abcd").data [] (-1 * 4) _ _ fuel 0 1 [] = .outOfFuel
    rw [show ((-1 : ℤ) * 4) = -4 from by decide]
    cases fuel with
    | zero =>
      simp only [splitLoop]
      rw [if_pos (by decide)]
    | succ fuel =>
      rw [splitLoop_cons ("abcd").data [] (-4) _ _ fuel 0 1 [] (by decide) (by decide)]
      rw [show stepEnd ("abcd").data (-4) 0 = -1 from by decide]
      exact splitLoop_stuck_abcd _ _ _ _
  simp only [combine_prompt_and_text]
  rw [if_neg (by decide)]
  rw [show availableTokens [] 2548 2048 500 = -1 from by decide]
  rw [hsc]

theorem splitLoop_ok_metas (text prompt : List Char) (csc oc : ℤ) (meta : Metadata) :
    ∀ fuel : ℕ, ∀ s : ℤ, ∀ c : ℕ, ∀ acc L,
    splitLoop text prompt csc oc meta fuel s c acc = .ok L →
    (∀ p ∈ acc, p.2.prompt_tokens = meta.prompt_tokens ∧ p.2.text_tokens = meta.text_tokens ∧
      p.2.available_tokens = meta.available_tokens) →
    ∀ p ∈ L, p.2.prompt_tokens = meta.prompt_tokens ∧ p.2.text_tokens = meta.text_tokens ∧
      p.2.available_tokens = meta.available_tokens := by
  intro fuel
  induction fuel with
  | zero =>
    intro s c acc L hok hacc p hp
    by_cases hs : s < (text.length : ℤ)
    · simp only [splitLoop, if_pos hs] at hok
      exact absurd hok (by simp)
    · simp only [splitLoop, if_neg hs, SplitOutcome.ok.injEq] at hok
      subst hok
      exact hacc p (List.mem_reverse.mp hp)
  | succ fuel ih =>
    intro s c acc L hok hacc p hp
    by_cases hs : s < (text.length : ℤ)
    · by_cases hz : csc = 0
      · simp only [splitLoop, if_pos hs, if_pos hz] at hok
        exact absurd hok (by simp)
      · rw [splitLoop_cons text prompt csc oc meta fuel s c acc hs hz] at hok
        refine ih _ _ _ L hok ?_ p hp
        intro q hq
        rcases List.mem_cons.mp hq with rfl | hq
        · exact mkChunk_budget_fields text prompt csc oc meta s c
        · exact hacc q hq
    · simp only [splitLoop, if_neg hs, SplitOutcome.ok.injEq] at hok
      subst hok
      exact hacc p (List.mem_reverse.mp hp)

/-- C6 counterexample: the code's estimator is `len // 4` (floor), not
`ceil(len / 4)`: on a one-character body the metadata reports 0 body
tokens while the ceiling estimator gives 1. -/
theorem estimator_not_ceil :
    (combineMeta [] ("a").data 0 0 0 ("fail")).text_tokens ≠ ceilEstimate ("a").data := by
  decide

/-- C6 amended: the token estimator is `estimate(text) = len(text) // 4`
(floor division), and that same function is applied to the prompt, the
separator and the body: every metadata record produced by
`combine_prompt_and_text` carries `prompt_tokens = estimate(prompt)`,
`text_tokens = estimate(body)` and an available budget computed from the
three floor estimates. -/
theorem estimator_floor_uniform (prompt text : List Char) (L mt sm : ℤ) (strategy : String)
    (fuel : ℕ) :
    tokenEstimate text = text.length / 4 ∧
    ∀ m ∈ resultMetas (combine_prompt_and_text prompt text L mt sm strategy fuel),
      m.prompt_tokens = tokenEstimate prompt ∧ m.text_tokens = tokenEstimate text ∧
      m.available_tokens = L - (tokenEstimate prompt : ℤ) - (tokenEstimate sepChars : ℤ)
        - sm - min mt 2048 := by
  refine ⟨rfl, ?_⟩
  intro m hm
  by_cases hfit : (tokenEstimate text : ℤ) ≤ availableTokens prompt L mt sm
  · rw [combine_fits prompt text L mt sm strategy fuel hfit] at hm
    simp only [resultMetas, List.mem_singleton] at hm
    subst hm
    exact ⟨rfl, rfl, rfl⟩
  · simp only [combine_prompt_and_text, if_neg hfit] at hm
    split at hm
    · simp [resultMetas] at hm
    · simp only [resultMetas, List.mem_singleton] at hm
      subst hm
      exact ⟨rfl, rfl, rfl⟩
    · split at hm
      · simp only [resultMetas, List.mem_singleton] at hm
        subst hm
        exact ⟨rfl, rfl, rfl⟩
      · simp only [resultMetas, List.mem_singleton] at hm
        subst hm
        exact ⟨rfl, rfl, rfl⟩
    · rename_i hsplitcase
      split at hm
      · rename_i l hok
        simp only [resultMetas, List.mem_map] at hm
        obtain ⟨p, hp, rfl⟩ := hm
        simp only [split_content] at hok
        have := splitLoop_ok_metas _ _ _ _ _ _ _ _ _ _ hok (by simp) p hp
        simpa using this
      · simp [resultMetas] at hm
      · simp [resultMetas] at hm
    · simp [resultMetas] at hm

theorem estimator_floor_uniform_witness :
    combineMeta [] ("hi").data 3000 100 0 ("fail")
        ∈ resultMetas (combine_prompt_and_text [] ("hi").data 3000 100 0 ("fail") 0) ∧
    ((combineMeta [] ("hi").data 3000 100 0 ("fail")).prompt_tokens
        = tokenEstimate ([] : List Char) ∧
      (combineMeta [] ("hi").data 3000 100 0 ("fail")).text_tokens
        = tokenEstimate ("hi").data ∧
      (combineMeta [] ("hi").data 3000 100 0 ("fail")).available_tokens
        = 3000 - (tokenEstimate ([] : List Char) : ℤ) - (tokenEstimate sepChars : ℤ)
          - 0 - min 100 2048) :=
  ⟨by decide,
    (estimator_floor_uniform [] ("hi").data 3000 100 0 ("fail") 0).2
      (combineMeta [] ("hi").data 3000 100 0 ("fail")) (by decide)⟩

/-- C9: `BatchStats` is mutated without the serialization the spec
requires.  `processed_files` and `failed_files` are updated in the main
thread's `as_completed` loop, but `self.stats['total_tokens'] +=
total_tokens` runs inside `_process_single_file` on the worker threads
(processor.py line 406) with no lock anywhere in the file, and `+=` on a
shared dict entry is a separate load and store.  On two successful files
reporting 5 and 7 backend tokens, the program-ordered interleaving
`load 0, load 1, store 0, store 1, tally 0, tally 1` — both workers read
`total_tokens = 0` before either writes — loses the first file's update:
the concurrent run ends with `total_tokens = 7`, while the sequential
(`W = 1`) run of the same outcomes ends with `total_tokens = 12`, so the
final `BatchStats` differ.  The claimed order-independence is what the
spec's serialization requirement (§5) is for; the unsynchronized
increment is the slip. -/
theorem concurrent_total_tokens_lost_update :
    ProgramOrderedTrace c9outcomes c9trace ∧
    (runTrace c9outcomes c9trace ⟨{}, []⟩).stats.total_tokens = 7 ∧
    (runBatch {} c9outcomes).total_tokens = 12 ∧
    ¬ ((runTrace c9outcomes c9trace ⟨{}, []⟩).stats = runBatch {} c9outcomes) := by
  refine ⟨⟨?_, ?_⟩, ?_, ?_, ?_⟩
  · decide
  · decide
  · decide
  · decide
  · decide
